import Mathlib

/-!
Verification of the build-time mermaid prerender pipeline
(`src/renderer.js`, `src/remark.js` of docusaurus-prerender-mermaid).

Strings are modelled as `List Char`; the JavaScript regexes used by the
source are modelled as executable functions on character lists, and the
per-block / per-task processing of `renderAllMermaidDiagrams` is embedded
as pure Lean functions (the concurrent executor is embedded as a fold that
threads the filesystem state, the two counters, and an event trace).
-/

namespace Mermaid

/-- Characters of a string literal (convenience for concrete inputs). -/
def chars (s : String) : List Char := s.data

/-- Whitespace class used by the JavaScript `\s` regex class and by
`String.prototype.trim` (the common members; exotic Unicode space
code points behave identically for every claim below). -/
def isJsSpace (c : Char) : Bool :=
  c = ' ' || c = '\t' || c = '\n' || c = '\r' || c = '\x0b' || c = '\x0c' || c = ' '

/-- JavaScript line terminators, which the regex `.` does not match. -/
def isLineTerm (c : Char) : Bool :=
  c = '\n' || c = '\r' || c = ' ' || c = ' '

/-- Model of `String.prototype.trim`: drop leading and trailing whitespace. -/
def trimChars (l : List Char) : List Char :=
  ((l.dropWhile isJsSpace).reverse.dropWhile isJsSpace).reverse

/-- First occurrence of `pat` in a list: returns the part before the
match and the part after it (`s = pre ++ pat ++ post`, leftmost match). -/
def splitFirst (pat : List Char) : List Char → Option (List Char × List Char)
  | [] => if pat.isEmpty then some ([], []) else none
  | c :: rest =>
    if pat.isPrefixOf (c :: rest) then some ([], (c :: rest).drop pat.length)
    else
      match splitFirst pat rest with
      | some (pre, post) => some (c :: pre, post)
      | none => none

/-- Concatenation of the images of `f` (used instead of library bind/flatMap
so that its length lemma is self-contained). -/
def concatMap (f : α → List β) : List α → List β
  | [] => []
  | x :: xs => f x ++ concatMap f xs

/-- Distinct elements of a list in order of first occurrence
(the key order of a JavaScript `Map` built by successive `set`s). -/
def firstKeys [DecidableEq α] : List α → List α
  | [] => []
  | x :: xs => x :: (firstKeys xs).filter (· ≠ x)

/-- Number of distinct elements of a list. -/
def countDistinct [DecidableEq α] (l : List α) : Nat := (firstKeys l).length

/-! ### MD5 (RFC 1321)

`createHash` in `renderer.js:17` and `remark.js:14` feeds the string to
Node's `crypto.createHash('md5')` (UTF-8 encoding), hex-encodes the digest
and keeps the first 10 characters.  The digest itself is the standard MD5
algorithm, embedded here on `Nat` with explicit reduction modulo 2^32. -/

/-- Reduction to a 32-bit word. -/
def w32 (n : Nat) : Nat := n % 4294967296

/-- Left rotation of a 32-bit word. -/
def rotl32 (x s : Nat) : Nat := ((x <<< s) + (x >>> (32 - s))) % 4294967296

/-- UTF-8 encoding of a single character. -/
def utf8EncodeChar (c : Char) : List Nat :=
  let n := c.toNat
  if n < 128 then [n]
  else if n < 2048 then [192 + n / 64, 128 + n % 64]
  else if n < 65536 then [224 + n / 4096, 128 + (n / 64) % 64, 128 + n % 64]
  else [240 + n / 262144, 128 + (n / 4096) % 64, 128 + (n / 64) % 64, 128 + n % 64]

/-- UTF-8 bytes of a character list. -/
def utf8Bytes (s : List Char) : List Nat := concatMap utf8EncodeChar s

/-- The 64 MD5 sine-derived constants. -/
def md5K : List Nat :=
  [0xd76aa478, 0xe8c7b756, 0x242070db, 0xc1bdceee,
   0xf57c0faf, 0x4787c62a, 0xa8304613, 0xfd469501,
   0x698098d8, 0x8b44f7af, 0xffff5bb1, 0x895cd7be,
   0x6b901122, 0xfd987193, 0xa679438e, 0x49b40821,
   0xf61e2562, 0xc040b340, 0x265e5a51, 0xe9b6c7aa,
   0xd62f105d, 0x02441453, 0xd8a1e681, 0xe7d3fbc8,
   0x21e1cde6, 0xc33707d6, 0xf4d50d87, 0x455a14ed,
   0xa9e3e905, 0xfcefa3f8, 0x676f02d9, 0x8d2a4c8a,
   0xfffa3942, 0x8771f681, 0x6d9d6122, 0xfde5380c,
   0xa4beea44, 0x4bdecfa9, 0xf6bb4b60, 0xbebfbc70,
   0x289b7ec6, 0xeaa127fa, 0xd4ef3085, 0x04881d05,
   0xd9d4d039, 0xe6db99e5, 0x1fa27cf8, 0xc4ac5665,
   0xf4292244, 0x432aff97, 0xab9423a7, 0xfc93a039,
   0x655b59c3, 0x8f0ccc92, 0xffeff47d, 0x85845dd1,
   0x6fa87e4f, 0xfe2ce6e0, 0xa3014314, 0x4e0811a1,
   0xf7537e82, 0xbd3af235, 0x2ad7d2bb, 0xeb86d391]

/-- The 64 MD5 per-round rotation amounts. -/
def md5S : List Nat :=
  [7, 12, 17, 22, 7, 12, 17, 22, 7, 12, 17, 22, 7, 12, 17, 22,
   5, 9, 14, 20, 5, 9, 14, 20, 5, 9, 14, 20, 5, 9, 14, 20,
   4, 11, 16, 23, 4, 11, 16, 23, 4, 11, 16, 23, 4, 11, 16, 23,
   6, 10, 15, 21, 6, 10, 15, 21, 6, 10, 15, 21, 6, 10, 15, 21]

/-- MD5 padding: a 0x80 byte, zero bytes up to 56 mod 64, then the
original bit length as eight little-endian bytes. -/
def md5pad (m : List Nat) : List Nat :=
  m ++ [128] ++ List.replicate ((119 - m.length % 64) % 64) 0 ++
    (List.range 8).map (fun i => ((m.length * 8) >>> (8 * i)) % 256)

/-- Split a byte list into 64-byte blocks. -/
def toBlocks (l : List Nat) : List (List Nat) :=
  if l.isEmpty then [] else l.take 64 :: toBlocks (l.drop 64)
termination_by l.length
decreasing_by
  rename_i h
  have hl : l ≠ [] := by simpa [List.isEmpty_iff] using h
  have : 0 < l.length := List.length_pos.mpr hl
  simp only [List.length_drop]
  omega

/-- Little-endian 32-bit word `i` of a 64-byte block. -/
def wordAt (bs : List Nat) (i : Nat) : Nat :=
  bs.getD (4 * i) 0 + (bs.getD (4 * i + 1) 0) <<< 8 +
    (bs.getD (4 * i + 2) 0) <<< 16 + (bs.getD (4 * i + 3) 0) <<< 24

/-- One MD5 round: round index `i` (0..63), message words via `bs`. -/
def md5round (bs : List Nat) (st : Nat × Nat × Nat × Nat) (i : Nat) :
    Nat × Nat × Nat × Nat :=
  let a := st.1
  let b := st.2.1
  let c := st.2.2.1
  let d := st.2.2.2
  let fg : Nat × Nat :=
    if i < 16 then ((b &&& c) ||| ((b ^^^ 4294967295) &&& d), i)
    else if i < 32 then ((d &&& b) ||| ((d ^^^ 4294967295) &&& c), (5 * i + 1) % 16)
    else if i < 48 then (b ^^^ c ^^^ d, (3 * i + 5) % 16)
    else (c ^^^ (b ||| (d ^^^ 4294967295)), (7 * i) % 16)
  let tmp := w32 (a + fg.1 + md5K.getD i 0 + wordAt bs fg.2)
  (d, w32 (b + rotl32 tmp (md5S.getD i 0)), b, c)

/-- Process one 64-byte block. -/
def md5block (st : Nat × Nat × Nat × Nat) (bs : List Nat) :
    Nat × Nat × Nat × Nat :=
  let r := (List.range 64).foldl (md5round bs) st
  (w32 (st.1 + r.1), w32 (st.2.1 + r.2.1), w32 (st.2.2.1 + r.2.2.1),
   w32 (st.2.2.2 + r.2.2.2))

/-- Little-endian bytes of a 32-bit word. -/
def wordBytes (w : Nat) : List Nat :=
  [w % 256, (w >>> 8) % 256, (w >>> 16) % 256, (w >>> 24) % 256]

/-- MD5 digest (16 bytes) of a byte message. -/
def md5bytes (msg : List Nat) : List Nat :=
  let st := (toBlocks (md5pad msg)).foldl md5block
    (0x67452301, 0xefcdab89, 0x98badcfe, 0x10325476)
  wordBytes st.1 ++ wordBytes st.2.1 ++ wordBytes st.2.2.1 ++ wordBytes st.2.2.2

/-- Lower-case hex digit. -/
def hexDigit (n : Nat) : Char :=
  if n < 10 then Char.ofNat (48 + n) else Char.ofNat (87 + n)

/-- Two hex digits of a byte. -/
def hexByte (b : Nat) : List Char := [hexDigit (b / 16), hexDigit (b % 16)]

/-- Hex encoding of the MD5 digest of a string (Node
`createHash('md5').update(str).digest('hex')`). -/
def md5hex (s : List Char) : List Char :=
  concatMap hexByte (md5bytes (utf8Bytes s))

/-- `createHash` of `renderer.js:17-19`, defined identically in
`remark.js:14-16`: hex MD5 digest truncated to 10 characters. -/
def createHash (s : List Char) : List Char := (md5hex s).take 10

/-! ### Regex models

`metadataBlockRegex = /---([\s\S]*?)---/` (renderer.js:12, remark.js:6):
leftmost match of three dashes, a lazily matched body, three dashes.
Because every character of the delimiter is a dash, the leftmost match
starts at the first occurrence of `---` and closes at the next occurrence
at distance at least 3, exactly what two nested `splitFirst`s compute. -/

/-- The `---` delimiter. -/
def dashes : List Char := ['-', '-', '-']

/-- First match of `metadataBlockRegex` in `s`: the part before the match,
the captured group, and the part after the match. -/
def matchMetadataBlock (s : List Char) :
    Option (List Char × List Char × List Char) :=
  match splitFirst dashes s with
  | none => none
  | some (pre, rest) =>
    match splitFirst dashes rest with
    | none => none
    | some (content, post) => some (pre, content, post)

/-- `block.match(metadataBlockRegex)` group 1, or `''` when there is no
match (renderer.js:98-99, remark.js:39-40). -/
def metaContent (s : List Char) : List Char :=
  match matchMetadataBlock s with
  | some (_, content, _) => content
  | none => []

/-- `s.replace(metadataBlockRegex, '')`: remove the first match. -/
def removeMetadata (s : List Char) : List Char :=
  match matchMetadataBlock s with
  | some (pre, _, post) => pre ++ post
  | none => s

/-- Group 1 of `/key\s*(.*)/` (e.g. `idRegex = /id:\s*(.*)/`,
renderer.js:13): text after the first occurrence of the key, with leading
`\s` (including newlines) skipped, up to the next line terminator. -/
def keyGroup (key s : List Char) : Option (List Char) :=
  match splitFirst key s with
  | none => none
  | some (_, rest) =>
    some ((rest.dropWhile isJsSpace).takeWhile (fun c => !isLineTerm c))

/-- The key of `idRegex`. -/
def idKey : List Char := chars "id:"

/-- `prerenderRegex = /prerender:\s*false/` as a Boolean test
(renderer.js:14, remark.js:11): some occurrence of `prerender:` is
followed, after its whitespace run, by the literal text `false`. -/
def prerenderFalse : List Char → Bool
  | [] => false
  | c :: rest =>
    ((chars "prerender:").isPrefixOf (c :: rest) &&
      (chars "false").isPrefixOf (((c :: rest).drop 10).dropWhile isJsSpace))
    || prerenderFalse rest

/-- The opening fence with language tag. -/
def fenceMermaid : List Char := chars "```mermaid"

/-- A bare fence. -/
def fence : List Char := chars "```"

/-- Fuel-indexed scan for `stripFences`; the fuel is only a structural
termination device, `stripFences` always supplies enough of it. -/
def stripFencesAux : Nat → List Char → List Char
  | 0, l => l
  | _ + 1, [] => []
  | fuel + 1, c :: rest =>
    if fenceMermaid.isPrefixOf (c :: rest) then
      stripFencesAux fuel ((c :: rest).drop 10)
    else if fence.isPrefixOf (c :: rest) then
      stripFencesAux fuel ((c :: rest).drop 3)
    else c :: stripFencesAux fuel rest

/-- `block.replace(/```mermaid|```/g, '')` (renderer.js:107-108): global
replacement, the left alternative preferred at each position. -/
def stripFences (l : List Char) : List Char := stripFencesAux l.length l

/-! ### Render pipeline (renderer.js) -/

/-- A render task as queued at renderer.js:126-132. -/
structure RenderTask where
  id : List Char
  locale : List Char
  filename : List Char
  mermaidCode : List Char
  outputPath : List Char
deriving DecidableEq, Repr

/-- The identity computation of renderer.js:112-117 (identical conditional
at remark.js:56-61): the trimmed regex group when it is non-empty
(JavaScript truthiness of `idMatch && idMatch[1]`), else the content hash
of the diagram body. -/
def deriveId (mermaidCode : List Char) (idGroup : Option (List Char)) :
    List Char :=
  match idGroup with
  | some g => if g.isEmpty then createHash mermaidCode else trimChars g
  | none => createHash mermaidCode

/-- Output filename assembly of renderer.js:119. -/
def mkFilename (id locale suffix format : List Char) : List Char :=
  id ++ chars "-" ++ locale ++ suffix ++ chars "." ++ format

/-- `path.join` modelled as separator concatenation (no normalization is
exercised by the claims). -/
def joinPath (dir file : List Char) : List Char := dir ++ chars "/" ++ file

/-- The per-block body of the scanning loop, renderer.js:97-133: skip the
block when the prerender flag matches, otherwise build the task from the
fence-stripped, header-stripped, trimmed body. -/
def processBlock (outputSuffix outputFormat outputDir : List Char)
    (block locale : List Char) : Option RenderTask :=
  let mc := metaContent block
  if prerenderFalse mc then none
  else
    let mermaidCode := trimChars (removeMetadata (stripFences block))
    let id := deriveId mermaidCode (keyGroup idKey mc)
    let filename := mkFilename id locale outputSuffix outputFormat
    some ⟨id, locale, filename, mermaidCode, joinPath outputDir filename⟩

/-- The task list accumulated over all scanned blocks (each block paired
with its resolved locale), renderer.js:78-134. -/
def planTasks (outputSuffix outputFormat outputDir : List Char)
    (blocks : List (List Char × List Char)) : List RenderTask :=
  blocks.filterMap
    (fun b => processBlock outputSuffix outputFormat outputDir b.1 b.2)

/-- The value stored under key `k` after all `Map.set`s: the last task
with that filename. -/
def lastTask (k : List Char) (ts : List RenderTask) : Option RenderTask :=
  (ts.filter (fun t => t.filename = k)).getLast?

/-- `Array.from(new Map(tasks.map(t => [t.filename, t])).values())`
(renderer.js:139-141): distinct filenames in first-insertion order, each
mapped to the last task that carried it. -/
def uniqueTasks (ts : List RenderTask) : List RenderTask :=
  (firstKeys (ts.map (fun t => t.filename))).filterMap (fun k => lastTask k ts)

/-! ### Executor (renderer.js:146-195)

The concurrent pool mutates two counters and the filesystem; counts and
per-task behaviour are embedded as a fold that threads the set of existing
output paths, the two counters the code maintains (renderedCount,
skippedCount — the code keeps no failure counter), and a trace of
observable per-task events.  `renderOk` is the outcome of the external
`mmdc` invocation, `unlinkOk` the outcome of temp-file deletion. -/

/-- The two counters of renderer.js:147-148, reported at lines 192-193. -/
structure RunSummary where
  rendered : Nat
  skipped : Nat
deriving DecidableEq, Repr

/-- Observable per-task events of the executor loop. -/
inductive Event where
  | skippedCached : List Char → Event
  | wroteTemp : List Char → Event
  | invoked : List Char → Event
  | renderFailed : List Char → Event
  | tempDeleted : List Char → Event
  | tempDeleteFailed : List Char → Event
deriving DecidableEq, Repr

/-- Executor state: existing files, counters, event trace. -/
structure ExecState where
  fs : List (List Char)
  summary : RunSummary
  events : List Event
deriving DecidableEq, Repr

/-- `path.join(tempDir, `temp_${task.filename}.mmd`)` (renderer.js:153). -/
def tempName (tempDir : List Char) (t : RenderTask) : List Char :=
  joinPath tempDir (chars "temp_" ++ t.filename ++ chars ".mmd")

/-- The `finally` block, renderer.js:178-184: deletion is attempted and its
failure only logged. -/
def deleteEvents (unlinkOk : List Char → Bool) (temp : List Char) :
    List Event :=
  if unlinkOk temp then [.tempDeleted temp] else [.tempDeleteFailed temp]

/-- One task of the executor, renderer.js:152-185: cached outputs are
counted skipped before any temp write; otherwise the temp file is written,
the renderer invoked (success creates the output file and increments
renderedCount, failure increments nothing), and deletion is attempted in
either case. -/
def execTask (renderOk : RenderTask → Bool) (unlinkOk : List Char → Bool)
    (tempDir : List Char) (st : ExecState) (t : RenderTask) : ExecState :=
  let temp := tempName tempDir t
  if t.outputPath ∈ st.fs then
    { st with
      summary := { st.summary with skipped := st.summary.skipped + 1 },
      events := st.events ++ [.skippedCached t.filename] }
  else if renderOk t then
    { fs := st.fs ++ [t.outputPath],
      summary := { st.summary with rendered := st.summary.rendered + 1 },
      events := st.events ++ [.wroteTemp temp, .invoked t.filename] ++
        deleteEvents unlinkOk temp }
  else
    { st with
      events := st.events ++
        [.wroteTemp temp, .invoked t.filename, .renderFailed t.filename] ++
        deleteEvents unlinkOk temp }

/-- The whole pass over a task list, starting from the output files
already on disk. -/
def execute (renderOk : RenderTask → Bool) (unlinkOk : List Char → Bool)
    (tempDir : List Char) (tasks : List RenderTask)
    (fs0 : List (List Char)) : ExecState :=
  tasks.foldl (execTask renderOk unlinkOk tempDir) ⟨fs0, ⟨0, 0⟩, []⟩

/-! ### Markup transformer side (remark.js) -/

/-- `value.replace(metadataBlockRegex, '').trim()` (remark.js:54). -/
def remarkMermaidCode (value : List Char) : List Char :=
  trimChars (removeMetadata value)

/-- The identity computed by the markup transformer (remark.js:47,
56-61) from a mermaid code-block value. -/
def remarkId (value : List Char) : List Char :=
  deriveId (remarkMermaidCode value) (keyGroup idKey (metaContent value))

/-- Image filename assembled by the markup transformer
(remark.js:101, 123, 147). -/
def remarkFilename (id locale suffix format : List Char) : List Char :=
  id ++ chars "-" ++ locale ++ suffix ++ chars "." ++ format

/-- The identity the render pipeline computes for a raw fenced block
(the composition of renderer.js:98-117). -/
def rendererId (block : List Char) : List Char :=
  deriveId (trimChars (removeMetadata (stripFences block)))
    (keyGroup idKey (metaContent block))

/-- The Metadata Extractor contract of the spec (section 4.2) as realised
by the source operations renderer.js:98-110: first regex group as the
metadata field source, header removed and trimmed as the body. -/
def extract (raw : List Char) : List Char × List Char :=
  (metaContent raw, trimChars (removeMetadata raw))

/-! ### Concrete inputs used by witnesses and counterexamples -/

/-- A block with explicit identity `a`. -/
def blockIdA : List Char := chars "```mermaid\n---\nid: a\n---\nX\n```"

/-- A block with explicit identity `a-b`. -/
def blockIdAB : List Char := chars "```mermaid\n---\nid: a-b\n---\nY\n```"

/-- A block whose prerender value is `falsely`, not the literal `false`. -/
def blockFalsely : List Char :=
  chars "```mermaid\n---\nprerender: falsely\n---\nZ\n```"

/-- A block with the literal `prerender: false` marker. -/
def blockPrerenderOff : List Char :=
  chars "```mermaid\n---\nprerender: false\n---\nZ\n```"

/-- A block with no metadata header at all. -/
def blockPlain : List Char := chars "```mermaid\ngraph TD\n```"

/-- A raw block whose stripped body still contains a `---`-delimited pair. -/
def rawDoubleDash : List Char := chars "---h---x --- y --- z"

/-- A concrete task. -/
def taskA : RenderTask :=
  ⟨chars "a", chars "en", chars "a-en.svg", chars "graph TD",
    chars "/out/a-en.svg"⟩

/-- A second concrete task with a distinct output path. -/
def taskB : RenderTask :=
  ⟨chars "b", chars "en", chars "b-en.svg", chars "graph LR",
    chars "/out/b-en.svg"⟩

/-- Renderer stub that always succeeds. -/
def renderAlwaysOk : RenderTask → Bool := fun _ => true

/-- Renderer stub that fails exactly for `taskB`. -/
def renderFailsB : RenderTask → Bool := fun t => decide (t.id ≠ chars "b")

/-- Deletion stub that always succeeds. -/
def unlinkAlwaysOk : List Char → Bool := fun _ => true

/-- Deletion stub that always fails. -/
def unlinkNeverOk : List Char → Bool := fun _ => false

/-- The identity-and-locale pair of a task (the claim's
(identity, locale, theme-variant) triple with the per-pass variant
component dropped, since suffix and format are fixed for a pass). -/
def idLocale (t : RenderTask) : List Char × List Char := (t.id, t.locale)

/-- The backtick character (code point 96). -/
def backtick : Char := Char.ofNat 96

/-! ### Lemmas about `isPrefixOf` and `splitFirst` -/

theorem isPrefixOf_append_right (p : List Char) :
    ∀ x y : List Char, p.isPrefixOf x = true → p.isPrefixOf (x ++ y) = true := by
  induction p with
  | nil => intro x y _; simp [List.isPrefixOf]
  | cons a p' ih =>
    intro x y h
    cases x with
    | nil => simp [List.isPrefixOf] at h
    | cons b x' =>
      simp only [List.cons_append, List.isPrefixOf, Bool.and_eq_true] at h ⊢
      exact ⟨h.1, ih x' y h.2⟩

theorem isPrefixOf_length_le (p : List Char) :
    ∀ x : List Char, p.isPrefixOf x = true → p.length ≤ x.length := by
  induction p with
  | nil => intro x _; simp
  | cons a p' ih =>
    intro x h
    cases x with
    | nil => simp [List.isPrefixOf] at h
    | cons b x' =>
      simp only [List.isPrefixOf, Bool.and_eq_true] at h
      simpa using Nat.succ_le_succ (ih x' h.2)

theorem isPrefixOf_of_append_le (p : List Char) :
    ∀ x y : List Char, p.isPrefixOf (x ++ y) = true → p.length ≤ x.length →
      p.isPrefixOf x = true := by
  induction p with
  | nil => intro x y _ _; simp [List.isPrefixOf]
  | cons a p' ih =>
    intro x y h hl
    cases x with
    | nil => simp at hl
    | cons b x' =>
      simp only [List.cons_append, List.isPrefixOf, Bool.and_eq_true] at h ⊢
      exact ⟨h.1, ih x' y h.2 (by simpa using hl)⟩

theorem isPrefixOf_eq_append (p : List Char) :
    ∀ x : List Char, p.isPrefixOf x = true → x = p ++ x.drop p.length := by
  induction p with
  | nil => intro x _; simp
  | cons a p' ih =>
    intro x h
    cases x with
    | nil => simp [List.isPrefixOf] at h
    | cons b x' =>
      simp only [List.isPrefixOf, Bool.and_eq_true, beq_iff_eq] at h
      obtain ⟨rfl, h2⟩ := h
      simpa using ih x' h2

theorem dashes_head (c : Char) (rest : List Char)
    (h : dashes.isPrefixOf (c :: rest) = true) : c = '-' := by
  simp only [dashes, List.isPrefixOf, Bool.and_eq_true, beq_iff_eq] at h
  exact h.1.symm

theorem dashes_isPrefixOf_append (x b : List Char) (hb : ∀ c ∈ b, c ≠ '-')
    (h : dashes.isPrefixOf (x ++ b) = true) : dashes.isPrefixOf x = true := by
  match x with
  | [] =>
    cases b with
    | nil => simp [dashes, List.isPrefixOf] at h
    | cons d bs =>
      exact absurd (dashes_head d bs h) (hb d (by simp))
  | [c1] =>
    simp only [List.cons_append, List.nil_append, dashes, List.isPrefixOf,
      Bool.and_eq_true, beq_iff_eq] at h
    cases b with
    | nil => simp [List.isPrefixOf] at h
    | cons d bs =>
      simp only [List.isPrefixOf, Bool.and_eq_true, beq_iff_eq] at h
      exact absurd h.2.1.symm (hb d (by simp))
  | [c1, c2] =>
    simp only [List.cons_append, List.nil_append, dashes, List.isPrefixOf,
      Bool.and_eq_true, beq_iff_eq] at h
    cases b with
    | nil => simp [List.isPrefixOf] at h
    | cons d bs =>
      simp only [List.isPrefixOf, Bool.and_eq_true, beq_iff_eq] at h
      exact absurd h.2.2.1.symm (hb d (by simp))
  | c1 :: c2 :: c3 :: r =>
    simp only [List.cons_append, dashes, List.isPrefixOf, Bool.and_eq_true,
      beq_iff_eq] at h ⊢
    exact ⟨h.1, h.2.1, h.2.2.1, by simp [List.isPrefixOf]⟩

theorem splitFirst_nil (pat : List Char) :
    splitFirst pat [] = if pat.isEmpty then some ([], []) else none := rfl

theorem splitFirst_cons (pat : List Char) (c : Char) (rest : List Char) :
    splitFirst pat (c :: rest) =
      if pat.isPrefixOf (c :: rest) then some ([], (c :: rest).drop pat.length)
      else
        match splitFirst pat rest with
        | some (pre, post) => some (c :: pre, post)
        | none => none := rfl

theorem splitFirst_eq_some_append (pat : List Char) :
    ∀ l pre post : List Char,
      splitFirst pat l = some (pre, post) → l = pre ++ pat ++ post := by
  intro l
  induction l with
  | nil =>
    intro pre post h
    by_cases hp : pat.isEmpty
    · rw [splitFirst_nil, if_pos hp] at h
      simp only [Option.some.injEq, Prod.mk.injEq] at h
      obtain ⟨rfl, rfl⟩ := h
      simp [List.isEmpty_iff.mp hp]
    · rw [splitFirst_nil, if_neg hp] at h
      simp at h
  | cons c rest ih =>
    intro pre post h
    rw [splitFirst_cons] at h
    by_cases hpre : pat.isPrefixOf (c :: rest) = true
    · rw [if_pos hpre] at h
      simp only [Option.some.injEq, Prod.mk.injEq] at h
      obtain ⟨rfl, rfl⟩ := h
      simpa using isPrefixOf_eq_append pat (c :: rest) hpre
    · rw [if_neg hpre] at h
      cases hr : splitFirst pat rest with
      | none => rw [hr] at h; simp at h
      | some pr =>
        obtain ⟨p', q⟩ := pr
        rw [hr] at h
        simp only [Option.some.injEq, Prod.mk.injEq] at h
        obtain ⟨rfl, rfl⟩ := h
        rw [List.cons_append, List.cons_append, ih p' q hr]

theorem splitFirst_some_length (pat l pre post : List Char)
    (h : splitFirst pat l = some (pre, post)) : pat.length ≤ l.length := by
  have := splitFirst_eq_some_append pat l pre post h
  subst this
  simp only [List.length_append]
  omega

theorem noDash_splitFirst_none (b : List Char) (hb : ∀ c ∈ b, c ≠ '-') :
    splitFirst dashes b = none := by
  induction b with
  | nil => rfl
  | cons c rest ih =>
    have hpre : ¬ dashes.isPrefixOf (c :: rest) = true := fun h =>
      (hb c (by simp)) (dashes_head c rest h)
    rw [splitFirst_cons, if_neg hpre, ih (fun d hd => hb d (by simp [hd]))]

theorem splitFirst_dashes_append_left (a b : List Char)
    (ha : ∀ c ∈ a, c ≠ '-') :
    splitFirst dashes (a ++ b) =
      (splitFirst dashes b).map (fun pr => (a ++ pr.1, pr.2)) := by
  induction a with
  | nil =>
    cases hs : splitFirst dashes b with
    | none => simp [hs]
    | some pr => simp [hs]
  | cons c a' ih =>
    have hstep : (c :: a') ++ b = c :: (a' ++ b) := List.cons_append c a' b
    rw [hstep, splitFirst_cons]
    have hpre : ¬ dashes.isPrefixOf (c :: (a' ++ b)) = true := fun h =>
      (ha c (by simp)) (dashes_head c _ h)
    rw [if_neg hpre, ih (fun d hd => ha d (by simp [hd]))]
    cases hs : splitFirst dashes b with
    | none => rfl
    | some pr => simp

theorem splitFirst_dashes_append_some (v b : List Char) :
    ∀ pre post : List Char, splitFirst dashes v = some (pre, post) →
      splitFirst dashes (v ++ b) = some (pre, post ++ b) := by
  induction v with
  | nil => intro pre post h; simp [splitFirst_nil, dashes, List.isEmpty] at h
  | cons c rest ih =>
    intro pre post h
    rw [splitFirst_cons] at h
    by_cases hpre : dashes.isPrefixOf (c :: rest) = true
    · rw [if_pos hpre] at h
      simp only [Option.some.injEq, Prod.mk.injEq] at h
      obtain ⟨rfl, rfl⟩ := h
      have hpre' := isPrefixOf_append_right dashes (c :: rest) b hpre
      have hle := isPrefixOf_length_le dashes (c :: rest) hpre
      rw [List.cons_append, splitFirst_cons]
      rw [← List.cons_append]
      rw [if_pos hpre', List.drop_append_of_le_length hle]
    · rw [if_neg hpre] at h
      cases hr : splitFirst dashes rest with
      | none => rw [hr] at h; simp at h
      | some pr =>
        obtain ⟨p', q⟩ := pr
        rw [hr] at h
        simp only [Option.some.injEq, Prod.mk.injEq] at h
        obtain ⟨rfl, rfl⟩ := h
        have hlen : dashes.length ≤ (c :: rest).length := by
          have := splitFirst_some_length dashes rest p' q hr
          simp only [List.length_cons]
          omega
        have hpre2 : ¬ dashes.isPrefixOf ((c :: rest) ++ b) = true := fun hx =>
          hpre (isPrefixOf_of_append_le dashes (c :: rest) b hx hlen)
        rw [List.cons_append] at hpre2
        rw [List.cons_append, splitFirst_cons, if_neg hpre2, ih p' q hr]

theorem splitFirst_dashes_append_none (v b : List Char)
    (hv : splitFirst dashes v = none) (hb : ∀ c ∈ b, c ≠ '-') :
    splitFirst dashes (v ++ b) = none := by
  induction v with
  | nil => simpa using noDash_splitFirst_none b hb
  | cons c rest ih =>
    rw [splitFirst_cons] at hv
    by_cases hpre : dashes.isPrefixOf (c :: rest) = true
    · rw [if_pos hpre] at hv; simp at hv
    · rw [if_neg hpre] at hv
      cases hr : splitFirst dashes rest with
      | some pr => rw [hr] at hv; simp at hv
      | none =>
        have hpre2 : ¬ dashes.isPrefixOf ((c :: rest) ++ b) = true := fun hx =>
          hpre (dashes_isPrefixOf_append (c :: rest) b hb hx)
        rw [List.cons_append] at hpre2
        rw [List.cons_append, splitFirst_cons, if_neg hpre2, ih hr]

theorem metaContent_embed (a v b : List Char) (ha : ∀ c ∈ a, c ≠ '-')
    (hb : ∀ c ∈ b, c ≠ '-') : metaContent (a ++ v ++ b) = metaContent v := by
  have hassoc : a ++ v ++ b = a ++ (v ++ b) := by simp
  unfold metaContent matchMetadataBlock
  rw [hassoc, splitFirst_dashes_append_left a (v ++ b) ha]
  cases hsv : splitFirst dashes v with
  | none => rw [splitFirst_dashes_append_none v b hsv hb]; rfl
  | some pr =>
    obtain ⟨pre, rest⟩ := pr
    rw [splitFirst_dashes_append_some v b pre rest hsv]
    simp only [Option.map_some']
    cases hsr : splitFirst dashes rest with
    | none => rw [splitFirst_dashes_append_none rest b hsr hb]
    | some pr2 =>
      obtain ⟨content, post⟩ := pr2
      rw [splitFirst_dashes_append_some rest b content post hsr]

/-! ### Lemmas about `stripFences` -/

theorem stripFencesAux_congr :
    ∀ (f1 f2 : Nat) (l : List Char), l.length ≤ f1 → l.length ≤ f2 →
      stripFencesAux f1 l = stripFencesAux f2 l
  | 0, f2, l, h1, _ => by
    have hl : l = [] := List.eq_nil_of_length_eq_zero (Nat.le_zero.mp h1)
    subst hl
    cases f2 <;> rfl
  | _ + 1, f2, [], _, _ => by cases f2 <;> rfl
  | _ + 1, 0, c :: rest, _, h2 => by simp at h2
  | f + 1, f2 + 1, c :: rest, h1, h2 => by
    simp only [stripFencesAux]
    have hlen : rest.length ≤ f := by simpa using h1
    have hlen2 : rest.length ≤ f2 := by simpa using h2
    by_cases hM : fenceMermaid.isPrefixOf (c :: rest) = true
    · rw [if_pos hM, if_pos hM]
      exact stripFencesAux_congr f f2 _
        (by simp only [List.length_drop, List.length_cons]; omega)
        (by simp only [List.length_drop, List.length_cons]; omega)
    · rw [if_neg hM, if_neg hM]
      by_cases hF : fence.isPrefixOf (c :: rest) = true
      · rw [if_pos hF, if_pos hF]
        exact stripFencesAux_congr f f2 _
          (by simp only [List.length_drop, List.length_cons]; omega)
          (by simp only [List.length_drop, List.length_cons]; omega)
      · rw [if_neg hF, if_neg hF,
          stripFencesAux_congr f f2 rest hlen hlen2]

theorem stripFences_cons (c : Char) (rest : List Char) :
    stripFences (c :: rest) =
      if fenceMermaid.isPrefixOf (c :: rest) then
        stripFences ((c :: rest).drop 10)
      else if fence.isPrefixOf (c :: rest) then
        stripFences ((c :: rest).drop 3)
      else c :: stripFences rest := by
  show stripFencesAux (rest.length + 1) (c :: rest) = _
  simp only [stripFencesAux]
  by_cases hM : fenceMermaid.isPrefixOf (c :: rest) = true
  · rw [if_pos hM, if_pos hM]
    exact stripFencesAux_congr rest.length _ _
      (by simp only [List.length_drop, List.length_cons]; omega) le_rfl
  · rw [if_neg hM, if_neg hM]
    by_cases hF : fence.isPrefixOf (c :: rest) = true
    · rw [if_pos hF, if_pos hF]
      exact stripFencesAux_congr rest.length _ _
        (by simp only [List.length_drop, List.length_cons]; omega) le_rfl
    · rw [if_neg hF, if_neg hF]; rfl

theorem fence_eq_cons : fence = [backtick, backtick, backtick] := rfl

theorem fence_isPrefixOf_head (c : Char) (rest : List Char)
    (h : fence.isPrefixOf (c :: rest) = true) : c = backtick := by
  rw [fence_eq_cons] at h
  simp only [List.isPrefixOf, Bool.and_eq_true, beq_iff_eq] at h
  exact h.1.symm

theorem isPrefixOf_of_append_isPrefixOf (p q : List Char) :
    ∀ x : List Char, (p ++ q).isPrefixOf x = true → p.isPrefixOf x = true := by
  induction p with
  | nil => intro x _; cases x <;> simp [List.isPrefixOf]
  | cons a p' ih =>
    intro x h
    cases x with
    | nil => simp [List.isPrefixOf] at h
    | cons b x' =>
      simp only [List.cons_append, List.isPrefixOf, Bool.and_eq_true] at h ⊢
      exact ⟨h.1, ih x' h.2⟩

theorem fence_of_fenceMermaid (x : List Char)
    (h : fenceMermaid.isPrefixOf x = true) : fence.isPrefixOf x = true := by
  have hfm : fenceMermaid = fence ++ chars "mermaid" := rfl
  rw [hfm] at h
  exact isPrefixOf_of_append_isPrefixOf fence (chars "mermaid") x h

theorem stripFences_append_fence :
    ∀ v : List Char, splitFirst fence v = none →
      v.getLast? ≠ some backtick → stripFences (v ++ fence) = v := by
  intro v
  induction v with
  | nil => intro _ _; decide
  | cons c rest ih =>
    intro h1 h2
    rw [splitFirst_cons] at h1
    by_cases hpre : fence.isPrefixOf (c :: rest) = true
    · rw [if_pos hpre] at h1; simp at h1
    · rw [if_neg hpre] at h1
      have hrest : splitFirst fence rest = none := by
        cases hr : splitFirst fence rest with
        | none => rfl
        | some pr => obtain ⟨p, q⟩ := pr; rw [hr] at h1; simp at h1
      have hnp : ¬ fence.isPrefixOf (c :: (rest ++ fence)) = true := by
        intro hx
        cases rest with
        | nil =>
          have hc : c = backtick :=
            fence_isPrefixOf_head c fence (by simpa using hx)
          exact h2 (by simp [hc])
        | cons c2 rest2 =>
          cases rest2 with
          | nil =>
            rw [fence_eq_cons] at hx
            simp only [List.cons_append, List.nil_append, List.isPrefixOf,
              Bool.and_eq_true, beq_iff_eq] at hx
            exact h2 (by simp [← hx.2.1])
          | cons c3 rest3 =>
            rw [← List.cons_append] at hx
            have hle : fence.length ≤ (c :: c2 :: c3 :: rest3).length := by
              rw [fence_eq_cons]; simp
            exact hpre (isPrefixOf_of_append_le fence _ fence hx hle)
      have hnpM : ¬ fenceMermaid.isPrefixOf (c :: (rest ++ fence)) = true :=
        fun hx => hnp (fence_of_fenceMermaid _ hx)
      have hlast : rest.getLast? ≠ some backtick := by
        cases rest with
        | nil => simp
        | cons d ds =>
          rw [List.getLast?_cons_cons] at h2
          exact h2
      rw [List.cons_append, stripFences_cons, if_neg hnpM, if_neg hnp,
        ih hrest hlast]

theorem stripFences_fenceMermaid_append (x : List Char) :
    stripFences (fenceMermaid ++ x) = stripFences x := by
  have hexp : fenceMermaid ++ x = backtick :: (chars "``mermaid" ++ x) := rfl
  have hM : fenceMermaid.isPrefixOf (fenceMermaid ++ x) = true :=
    isPrefixOf_append_right fenceMermaid fenceMermaid x (by decide)
  rw [hexp] at hM
  rw [hexp, stripFences_cons, if_pos hM]
  have hdrop : (backtick :: (chars "``mermaid" ++ x)).drop 10 = x := by
    rw [← hexp, show (10 : Nat) = fenceMermaid.length from rfl, List.drop_left]
  rw [hdrop]

theorem stripFences_wrap (v : List Char) (h1 : splitFirst fence v = none)
    (h2 : v.getLast? ≠ some backtick) :
    stripFences (fenceMermaid ++ v ++ fence) = v := by
  have hassoc : fenceMermaid ++ v ++ fence = fenceMermaid ++ (v ++ fence) := by
    simp
  rw [hassoc, stripFences_fenceMermaid_append, stripFences_append_fence v h1 h2]

/-! ### Lemmas about `trimChars` -/

theorem dropWhile_head_not (p : Char → Bool) (l : List Char) :
    ∀ c, (l.dropWhile p).head? = some c → p c = false := by
  induction l with
  | nil => intro c h; simp at h
  | cons a as ih =>
    intro c h
    rw [List.dropWhile_cons] at h
    by_cases ha : p a = true
    · rw [if_pos ha] at h; exact ih c h
    · rw [if_neg ha] at h
      simp only [List.head?_cons, Option.some.injEq] at h
      subst h
      simpa using ha

theorem dropWhile_eq_self_of_head (p : Char → Bool) (l : List Char)
    (h : ∀ c, l.head? = some c → p c = false) : l.dropWhile p = l := by
  cases l with
  | nil => rfl
  | cons a as =>
    rw [List.dropWhile_cons, if_neg]
    simp [h a rfl]

theorem dropWhile_idem (p : Char → Bool) (l : List Char) :
    (l.dropWhile p).dropWhile p = l.dropWhile p :=
  dropWhile_eq_self_of_head p _ (dropWhile_head_not p l)

theorem trim_idem (l : List Char) : trimChars (trimChars l) = trimChars l := by
  unfold trimChars
  have h1 : ∀ z : List Char,
      ((z.dropWhile isJsSpace).reverse.dropWhile isJsSpace).reverse.dropWhile
          isJsSpace =
        ((z.dropWhile isJsSpace).reverse.dropWhile isJsSpace).reverse := by
    intro z
    apply dropWhile_eq_self_of_head
    intro c hc
    rw [List.head?_reverse] at hc
    have hwne : (z.dropWhile isJsSpace).reverse.dropWhile isJsSpace ≠ [] := by
      intro hnil
      rw [hnil] at hc
      simp at hc
    obtain ⟨s, hs⟩ :=
      List.dropWhile_suffix (l := (z.dropWhile isJsSpace).reverse)
        (p := isJsSpace)
    have hlast : (z.dropWhile isJsSpace).reverse.getLast? = some c := by
      rw [← hs, List.getLast?_append_of_ne_nil s hwne]
      exact hc
    rw [List.getLast?_reverse] at hlast
    exact dropWhile_head_not isJsSpace z c hlast
  rw [h1 l, List.reverse_reverse, dropWhile_idem]

/-! ### Lemmas about `firstKeys`, `lastTask` and `uniqueTasks` -/

theorem mem_firstKeys [DecidableEq α] (l : List α) (x : α) :
    x ∈ firstKeys l ↔ x ∈ l := by
  induction l with
  | nil => simp [firstKeys]
  | cons a xs ih =>
    simp only [firstKeys, List.mem_cons, List.mem_filter, ih,
      decide_eq_true_eq]
    constructor
    · rintro (rfl | ⟨hx, _⟩)
      · exact Or.inl rfl
      · exact Or.inr hx
    · rintro (rfl | hx)
      · exact Or.inl rfl
      · by_cases hxa : x = a
        · exact Or.inl hxa
        · exact Or.inr ⟨hx, hxa⟩

theorem nodup_firstKeys [DecidableEq α] (l : List α) : (firstKeys l).Nodup := by
  induction l with
  | nil => simp [firstKeys]
  | cons a xs ih =>
    rw [firstKeys, List.nodup_cons]
    refine ⟨fun hmem => ?_, ih.filter _⟩
    rw [List.mem_filter] at hmem
    simpa using hmem.2

theorem firstKeys_toFinset [DecidableEq α] (l : List α) :
    (firstKeys l).toFinset = l.toFinset := by
  ext x
  simp [List.mem_toFinset, mem_firstKeys]

theorem countDistinct_eq_card [DecidableEq α] (l : List α) :
    countDistinct l = l.toFinset.card := by
  rw [countDistinct, ← List.toFinset_card_of_nodup (nodup_firstKeys l),
    firstKeys_toFinset]

theorem countDistinct_map_le [DecidableEq α] [DecidableEq β] (l : List α)
    (g : α → β) : countDistinct (l.map g) ≤ countDistinct l := by
  rw [countDistinct_eq_card, countDistinct_eq_card]
  have himg : (l.map g).toFinset = l.toFinset.image g := by
    ext x; simp
  rw [himg]
  exact Finset.card_image_le

theorem firstKeys_of_nodup [DecidableEq α] (l : List α) (h : l.Nodup) :
    firstKeys l = l := by
  induction l with
  | nil => rfl
  | cons a xs ih =>
    rw [List.nodup_cons] at h
    rw [firstKeys, ih h.2, List.filter_eq_self.mpr]
    intro b hb
    simp only [ne_eq, decide_eq_true_eq]
    exact fun hba => h.1 (hba ▸ hb)

theorem countDistinct_of_nodup [DecidableEq α] (l : List α) (h : l.Nodup) :
    countDistinct l = l.length := by
  rw [countDistinct, firstKeys_of_nodup l h]

theorem length_filterMap_of_isSome (f : α → Option β) (l : List α)
    (h : ∀ x ∈ l, (f x).isSome) : (l.filterMap f).length = l.length := by
  induction l with
  | nil => rfl
  | cons a xs ih =>
    rw [List.filterMap_cons]
    cases hf : f a with
    | none =>
      have := h a (by simp)
      rw [hf] at this
      simp at this
    | some b =>
      simp only [List.length_cons]
      rw [ih (fun x hx => h x (by simp [hx]))]

theorem lastTask_spec (k : List Char) (ts : List RenderTask)
    (h : ∃ t ∈ ts, t.filename = k) :
    ∃ t', lastTask k ts = some t' ∧ t'.filename = k := by
  have hne : ts.filter (fun t => t.filename = k) ≠ [] := by
    intro hnil
    obtain ⟨t, ht, hf⟩ := h
    have hmem : t ∈ ts.filter (fun t => t.filename = k) := by
      rw [List.mem_filter]
      exact ⟨ht, by simp [hf]⟩
    rw [hnil] at hmem
    simp at hmem
  have hsome : (ts.filter (fun t => t.filename = k)).getLast?.isSome :=
    List.getLast?_isSome.mpr hne
  obtain ⟨t', ht'⟩ := Option.isSome_iff_exists.mp hsome
  refine ⟨t', ht', ?_⟩
  have hmem : t' ∈ ts.filter (fun t => t.filename = k) :=
    List.mem_of_mem_getLast? (by simp [ht'])
  rw [List.mem_filter] at hmem
  simpa using hmem.2

theorem uniqueTasks_length (ts : List RenderTask) :
    (uniqueTasks ts).length = countDistinct (ts.map (fun t => t.filename)) := by
  rw [uniqueTasks, countDistinct]
  apply length_filterMap_of_isSome
  intro k hk
  rw [mem_firstKeys, List.mem_map] at hk
  obtain ⟨t, ht, rfl⟩ := hk
  obtain ⟨t', ht', _⟩ := lastTask_spec t.filename ts ⟨t, ht, rfl⟩
  simp [ht']

theorem uniqueTasks_filenames (ts : List RenderTask) :
    (uniqueTasks ts).map (fun t => t.filename) =
      firstKeys (ts.map (fun t => t.filename)) := by
  rw [uniqueTasks]
  have hgen : ∀ ks : List (List Char),
      (∀ k ∈ ks, ∃ t ∈ ts, t.filename = k) →
      (ks.filterMap (fun k => lastTask k ts)).map (fun t => t.filename) = ks := by
    intro ks
    induction ks with
    | nil => intro _; rfl
    | cons k ks' ih =>
      intro h
      obtain ⟨t', ht', hft⟩ := lastTask_spec k ts (h k (by simp))
      rw [List.filterMap_cons, ht']
      simp only [List.map_cons, hft]
      rw [ih (fun k' hk' => h k' (by simp [hk']))]
  apply hgen
  intro k hk
  rw [mem_firstKeys, List.mem_map] at hk
  obtain ⟨t, ht, rfl⟩ := hk
  exact ⟨t, ht, rfl⟩

theorem uniqueTasks_last_wins (ts : List RenderTask) (t : RenderTask)
    (ht : t ∈ uniqueTasks ts) : lastTask t.filename ts = some t := by
  rw [uniqueTasks, List.mem_filterMap] at ht
  obtain ⟨k, _, hlt⟩ := ht
  have hmem : t ∈ ts.filter (fun x => x.filename = k) :=
    List.mem_of_mem_getLast? (by rw [lastTask] at hlt; simp [hlt])
  rw [List.mem_filter] at hmem
  have hfk : t.filename = k := by simpa using hmem.2
  rw [hfk]
  exact hlt

/-! ### Characterization of `processBlock` -/

theorem processBlock_eq (s f od block loc : List Char) :
    processBlock s f od block loc =
      if prerenderFalse (metaContent block) then none
      else
        some ⟨deriveId (trimChars (removeMetadata (stripFences block)))
                (keyGroup idKey (metaContent block)),
              loc,
              mkFilename
                (deriveId (trimChars (removeMetadata (stripFences block)))
                  (keyGroup idKey (metaContent block))) loc s f,
              trimChars (removeMetadata (stripFences block)),
              joinPath od
                (mkFilename
                  (deriveId (trimChars (removeMetadata (stripFences block)))
                    (keyGroup idKey (metaContent block))) loc s f)⟩ := rfl

theorem planTasks_filename (s f od : List Char)
    (blocks : List (List Char × List Char)) :
    ∀ t ∈ planTasks s f od blocks,
      t.filename = mkFilename t.id t.locale s f ∧
      t.outputPath = joinPath od t.filename := by
  intro t ht
  rw [planTasks, List.mem_filterMap] at ht
  obtain ⟨b, _, hb⟩ := ht
  rw [processBlock_eq] at hb
  by_cases hp : prerenderFalse (metaContent b.1) = true
  · rw [if_pos hp] at hb; simp at hb
  · rw [if_neg hp] at hb
    simp only [Option.some.injEq] at hb
    subst hb
    exact ⟨rfl, rfl⟩

/-! ### Digest length -/

theorem length_concatMap_hexByte (l : List Nat) :
    (concatMap hexByte l).length = 2 * l.length := by
  induction l with
  | nil => rfl
  | cons b bs ih =>
    simp only [concatMap, hexByte, List.length_append, List.length_cons,
      List.length_nil, ih]
    omega

theorem md5bytes_length (msg : List Nat) : (md5bytes msg).length = 16 := by
  rw [md5bytes]
  simp only [wordBytes, List.length_append, List.length_cons, List.length_nil]

theorem md5hex_length (s : List Char) : (md5hex s).length = 32 := by
  rw [md5hex, length_concatMap_hexByte, md5bytes_length]

theorem createHash_length (s : List Char) : (createHash s).length = 10 := by
  rw [createHash, List.length_take, md5hex_length]
  decide

/-! ### Executor lemmas -/

theorem execTask_cached (rOk : RenderTask → Bool) (u : List Char → Bool)
    (td : List Char) (st : ExecState) (t : RenderTask)
    (h : t.outputPath ∈ st.fs) :
    execTask rOk u td st t =
      { st with
        summary := { st.summary with skipped := st.summary.skipped + 1 },
        events := st.events ++ [.skippedCached t.filename] } := by
  simp only [execTask]
  rw [if_pos h]

theorem execTask_render (rOk : RenderTask → Bool) (u : List Char → Bool)
    (td : List Char) (st : ExecState) (t : RenderTask)
    (h : t.outputPath ∉ st.fs) (hr : rOk t = true) :
    execTask rOk u td st t =
      { fs := st.fs ++ [t.outputPath],
        summary := { st.summary with rendered := st.summary.rendered + 1 },
        events := st.events ++
          [.wroteTemp (tempName td t), .invoked t.filename] ++
          deleteEvents u (tempName td t) } := by
  simp only [execTask]
  rw [if_neg h, if_pos hr]

theorem execTask_fail (rOk : RenderTask → Bool) (u : List Char → Bool)
    (td : List Char) (st : ExecState) (t : RenderTask)
    (h : t.outputPath ∉ st.fs) (hr : rOk t = false) :
    execTask rOk u td st t =
      { st with
        events := st.events ++
          [.wroteTemp (tempName td t), .invoked t.filename,
            .renderFailed t.filename] ++
          deleteEvents u (tempName td t) } := by
  simp only [execTask]
  rw [if_neg h, if_neg (by simp [hr])]

theorem execTask_fs_cases (rOk : RenderTask → Bool) (u : List Char → Bool)
    (td : List Char) (st : ExecState) (t : RenderTask) :
    (execTask rOk u td st t).fs = st.fs ∨
      (execTask rOk u td st t).fs = st.fs ++ [t.outputPath] := by
  by_cases h : t.outputPath ∈ st.fs
  · rw [execTask_cached rOk u td st t h]
    exact Or.inl rfl
  · cases hr : rOk t
    · rw [execTask_fail rOk u td st t h hr]
      exact Or.inl rfl
    · rw [execTask_render rOk u td st t h hr]
      exact Or.inr rfl

theorem exec_fold_counts (rOk : RenderTask → Bool) (u : List Char → Bool)
    (td : List Char) :
    ∀ (ts : List RenderTask) (st : ExecState),
      (∀ t ∈ ts, t.outputPath ∉ st.fs) →
      (ts.map (fun t => t.outputPath)).Nodup →
      (ts.foldl (execTask rOk u td) st).summary =
          ⟨st.summary.rendered + ts.countP (fun t => rOk t),
            st.summary.skipped⟩ ∧
        (ts.foldl (execTask rOk u td) st).fs =
          st.fs ++ (ts.filter (fun t => rOk t)).map (fun t => t.outputPath) := by
  intro ts
  induction ts with
  | nil =>
    intro st _ _
    refine ⟨?_, by simp⟩
    simp
  | cons t ts' ih =>
    intro st h1 h2
    rw [List.map_cons, List.nodup_cons] at h2
    have hnotin : t.outputPath ∉ st.fs := h1 t (by simp)
    rw [List.foldl_cons]
    cases hr : rOk t with
    | true =>
      rw [execTask_render rOk u td st t hnotin hr]
      have h1' : ∀ t' ∈ ts',
          t'.outputPath ∉ st.fs ++ [t.outputPath] := by
        intro t' ht'
        simp only [List.mem_append, List.mem_singleton]
        push_neg
        refine ⟨h1 t' (by simp [ht']), fun he => h2.1 ?_⟩
        rw [← he]
        exact List.mem_map_of_mem _ ht'
      obtain ⟨hs, hf⟩ := ih
        { fs := st.fs ++ [t.outputPath],
          summary :=
            { st.summary with rendered := st.summary.rendered + 1 },
          events := st.events ++
            [.wroteTemp (tempName td t), .invoked t.filename] ++
            deleteEvents u (tempName td t) }
        h1' h2.2
      refine ⟨?_, ?_⟩
      · rw [hs]
        simp [RunSummary.mk.injEq, List.countP_cons, hr]
        omega
      · rw [hf]
        simp [List.filter_cons, hr, List.append_assoc]
    | false =>
      rw [execTask_fail rOk u td st t hnotin hr]
      have h1' : ∀ t' ∈ ts', t'.outputPath ∉ st.fs :=
        fun t' ht' => h1 t' (by simp [ht'])
      obtain ⟨hs, hf⟩ := ih
        { st with
          events := st.events ++
            [.wroteTemp (tempName td t), .invoked t.filename,
              .renderFailed t.filename] ++
            deleteEvents u (tempName td t) }
        h1' h2.2
      refine ⟨?_, ?_⟩
      · rw [hs]
        simp [List.countP_cons, hr]
      · rw [hf]
        simp [List.filter_cons, hr]

theorem exec_fold_cached (rOk : RenderTask → Bool) (u : List Char → Bool)
    (td : List Char) :
    ∀ (ts : List RenderTask) (st : ExecState),
      (∀ t ∈ ts, t.outputPath ∈ st.fs) →
      ts.foldl (execTask rOk u td) st =
        { st with
          summary :=
            { st.summary with skipped := st.summary.skipped + ts.length },
          events := st.events ++
            ts.map (fun t => Event.skippedCached t.filename) } := by
  intro ts
  induction ts with
  | nil =>
    intro st _
    cases st with
    | mk fs sm ev => cases sm; simp
  | cons t ts' ih =>
    intro st h
    rw [List.foldl_cons, execTask_cached rOk u td st t (h t (by simp))]
    rw [ih
      { st with
        summary := { st.summary with skipped := st.summary.skipped + 1 },
        events := st.events ++ [.skippedCached t.filename] }
      (fun t' ht' => h t' (by simp [ht']))]
    simp [ExecState.mk.injEq, RunSummary.mk.injEq, List.map_cons,
      List.length_cons, List.append_assoc]
    omega

theorem exec_fold_fs_mono (rOk : RenderTask → Bool) (u : List Char → Bool)
    (td : List Char) :
    ∀ (ts : List RenderTask) (st : ExecState) (p : List Char),
      p ∈ st.fs → p ∈ (ts.foldl (execTask rOk u td) st).fs := by
  intro ts
  induction ts with
  | nil => intro st p hp; exact hp
  | cons t ts' ih =>
    intro st p hp
    rw [List.foldl_cons]
    apply ih
    rcases execTask_fs_cases rOk u td st t with h | h
    · rw [h]; exact hp
    · rw [h]; exact List.mem_append_left _ hp

theorem exec_fold_outputs_present (rOk : RenderTask → Bool)
    (u : List Char → Bool) (td : List Char) :
    ∀ (ts : List RenderTask) (st : ExecState),
      (∀ t ∈ ts, rOk t = true) →
      ∀ t ∈ ts, t.outputPath ∈ (ts.foldl (execTask rOk u td) st).fs := by
  intro ts
  induction ts with
  | nil => intro st _ t ht; simp at ht
  | cons t0 ts' ih =>
    intro st hok t ht
    rw [List.foldl_cons]
    rcases List.mem_cons.mp ht with rfl | ht'
    · apply exec_fold_fs_mono
      by_cases hc : t.outputPath ∈ st.fs
      · rcases execTask_fs_cases rOk u td st t with h | h <;> rw [h]
        · exact hc
        · exact List.mem_append_left _ hc
      · rw [execTask_render rOk u td st t hc (hok t (by simp))]
        simp
    · exact ih _ (fun x hx => hok x (by simp [hx])) t ht'

theorem execTask_unlink_fs_summary (rOk : RenderTask → Bool)
    (u1 u2 : List Char → Bool) (td : List Char) (st1 st2 : ExecState)
    (t : RenderTask) (hfs : st1.fs = st2.fs)
    (hsm : st1.summary = st2.summary) :
    (execTask rOk u1 td st1 t).fs = (execTask rOk u2 td st2 t).fs ∧
      (execTask rOk u1 td st1 t).summary =
        (execTask rOk u2 td st2 t).summary := by
  by_cases hc : t.outputPath ∈ st1.fs
  · rw [execTask_cached rOk u1 td st1 t hc,
      execTask_cached rOk u2 td st2 t (by rw [← hfs]; exact hc)]
    exact ⟨hfs, by rw [hsm]⟩
  · have hc2 : t.outputPath ∉ st2.fs := by rw [← hfs]; exact hc
    cases hr : rOk t
    · rw [execTask_fail rOk u1 td st1 t hc hr,
        execTask_fail rOk u2 td st2 t hc2 hr]
      exact ⟨hfs, hsm⟩
    · rw [execTask_render rOk u1 td st1 t hc hr,
        execTask_render rOk u2 td st2 t hc2 hr]
      exact ⟨by rw [hfs], by rw [hsm]⟩

theorem exec_fold_unlink_irrelevant (rOk : RenderTask → Bool)
    (u1 u2 : List Char → Bool) (td : List Char) :
    ∀ (ts : List RenderTask) (st1 st2 : ExecState),
      st1.fs = st2.fs → st1.summary = st2.summary →
      (ts.foldl (execTask rOk u1 td) st1).fs =
          (ts.foldl (execTask rOk u2 td) st2).fs ∧
        (ts.foldl (execTask rOk u1 td) st1).summary =
          (ts.foldl (execTask rOk u2 td) st2).summary := by
  intro ts
  induction ts with
  | nil => intro st1 st2 hfs hsm; exact ⟨hfs, hsm⟩
  | cons t ts' ih =>
    intro st1 st2 hfs hsm
    rw [List.foldl_cons, List.foldl_cons]
    obtain ⟨hfs', hsm'⟩ :=
      execTask_unlink_fs_summary rOk u1 u2 td st1 st2 t hfs hsm
    exact ih _ _ hfs' hsm'

theorem execTask_delete_attempted (rOk : RenderTask → Bool)
    (u : List Char → Bool) (td : List Char) (st : ExecState) (t : RenderTask)
    (p : List Char)
    (hinv : Event.wroteTemp p ∈ st.events →
      Event.tempDeleted p ∈ st.events ∨
        Event.tempDeleteFailed p ∈ st.events) :
    Event.wroteTemp p ∈ (execTask rOk u td st t).events →
      Event.tempDeleted p ∈ (execTask rOk u td st t).events ∨
        Event.tempDeleteFailed p ∈ (execTask rOk u td st t).events := by
  by_cases hc : t.outputPath ∈ st.fs
  · rw [execTask_cached rOk u td st t hc]
    intro h
    have h' : Event.wroteTemp p ∈ st.events := by
      rcases List.mem_append.mp h with h | h
      · exact h
      · simp at h
    rcases hinv h' with h'' | h''
    · exact Or.inl (List.mem_append_left _ h'')
    · exact Or.inr (List.mem_append_left _ h'')
  · cases hr : rOk t
    · rw [execTask_fail rOk u td st t hc hr]
      intro h
      have hsplit : Event.wroteTemp p ∈ st.events ∨ p = tempName td t := by
        rcases List.mem_append.mp h with h | h
        · rcases List.mem_append.mp h with h | h
          · exact Or.inl h
          · right
            simp only [List.mem_cons, List.not_mem_nil, or_false] at h
            rcases h with h | h | h
            · exact Event.wroteTemp.inj h
            · exact absurd h (by simp)
            · exact absurd h (by simp)
        · exfalso
          simp only [deleteEvents] at h
          rcases Bool.eq_false_or_eq_true (u (tempName td t)) with hu | hu <;>
            simp [hu] at h
      rcases hsplit with h' | rfl
      · rcases hinv h' with h'' | h''
        · exact Or.inl
            (List.mem_append_left _ (List.mem_append_left _ h''))
        · exact Or.inr
            (List.mem_append_left _ (List.mem_append_left _ h''))
      · cases hu : u (tempName td t)
        · right
          simp [deleteEvents, hu, List.mem_append]
        · left
          simp [deleteEvents, hu, List.mem_append]
    · rw [execTask_render rOk u td st t hc hr]
      intro h
      have hsplit : Event.wroteTemp p ∈ st.events ∨ p = tempName td t := by
        rcases List.mem_append.mp h with h | h
        · rcases List.mem_append.mp h with h | h
          · exact Or.inl h
          · right
            simp only [List.mem_cons, List.not_mem_nil, or_false] at h
            rcases h with h | h
            · exact Event.wroteTemp.inj h
            · exact absurd h (by simp)
        · exfalso
          simp only [deleteEvents] at h
          rcases Bool.eq_false_or_eq_true (u (tempName td t)) with hu | hu <;>
            simp [hu] at h
      rcases hsplit with h' | rfl
      · rcases hinv h' with h'' | h''
        · exact Or.inl
            (List.mem_append_left _ (List.mem_append_left _ h''))
        · exact Or.inr
            (List.mem_append_left _ (List.mem_append_left _ h''))
      · cases hu : u (tempName td t)
        · right
          simp [deleteEvents, hu, List.mem_append]
        · left
          simp [deleteEvents, hu, List.mem_append]

theorem exec_fold_delete_attempted (rOk : RenderTask → Bool)
    (u : List Char → Bool) (td : List Char) :
    ∀ (ts : List RenderTask) (st : ExecState),
      (∀ p, Event.wroteTemp p ∈ st.events →
        Event.tempDeleted p ∈ st.events ∨
          Event.tempDeleteFailed p ∈ st.events) →
      ∀ p, Event.wroteTemp p ∈ (ts.foldl (execTask rOk u td) st).events →
        Event.tempDeleted p ∈ (ts.foldl (execTask rOk u td) st).events ∨
          Event.tempDeleteFailed p ∈
            (ts.foldl (execTask rOk u td) st).events := by
  intro ts
  induction ts with
  | nil => intro st hinv p; exact hinv p
  | cons t ts' ih =>
    intro st hinv p
    rw [List.foldl_cons]
    exact ih _
      (fun q => execTask_delete_attempted rOk u td st t q (hinv q)) p

/-! ### Claim theorems -/

/-- Claim C3, counterexample: the claim says that a derive argument that is
non-empty after trimming is returned verbatim; the code returns it trimmed
(renderer.js:114 calls `.trim()`), so for the explicit identity `a ` (with a
trailing space, which the regex group of `/id:\s*(.*)/` can carry) the
returned identity is `a`, not `a ` verbatim. -/
theorem c3_counterexample :
    trimChars (chars "a ") ≠ [] ∧
      deriveId (chars "graph") (some (chars "a ")) ≠ chars "a " := by
  decide

/-- Claim C3 (amended): for every diagram body b and explicit identity
string x, if x is non-empty then derive(b, x) returns x trimmed of
surrounding whitespace, regardless of b; if x is empty or absent, derive
returns the hex encoding of the MD5 digest of the exact trimmed body
(metadata header already stripped) truncated to 10 characters (the result
is 10 characters long), which is deterministic across repeated calls on
the same body because it is a pure function of the body. -/
theorem c3_amended (b g : List Char) :
    (g ≠ [] → deriveId b (some g) = trimChars g) ∧
      deriveId b none = (md5hex b).take 10 ∧
      (deriveId b none).length = 10 ∧
      deriveId b (some []) = (md5hex b).take 10 := by
  refine ⟨?_, rfl, createHash_length b, rfl⟩
  intro hg
  show (if g.isEmpty then createHash b else trimChars g) = trimChars g
  rw [if_neg (by simpa [List.isEmpty_iff] using hg)]

/-- Witness for C3: the amended theorem applied at a concrete body and
explicit identity. -/
theorem c3_amended_witness :
    deriveId (chars "graph") (some (chars "a")) = trimChars (chars "a") :=
  (c3_amended (chars "graph") (chars "a")).1 (by decide)

/-- Claim C4, counterexample: extraction is not idempotent on every raw
block.  The body of a first extraction can itself still contain a
`---`-delimited pair (mermaid syntax such as `A --- B` uses dashes), and a
second extraction then strips again: for the raw block `---h---x --- y ---
z` the first body is `x --- y --- z`, and re-extracting from it yields
metadata ` y ` and the different body `x  z`. -/
theorem c4_counterexample :
    (extract (extract rawDoubleDash).2).1 = chars " y " ∧
      (extract (extract rawDoubleDash).2).2 ≠ (extract rawDoubleDash).2 := by
  decide

/-- Claim C4 (amended): for every raw block whose first-extraction body
contains no further `---`-delimited pair (no match of the metadata-block
regex), extracting again from that body yields empty metadata and the body
unchanged; bodies that still contain a delimiter pair are stripped again. -/
theorem c4_amended (raw : List Char)
    (h : matchMetadataBlock (extract raw).2 = none) :
    extract (extract raw).2 = ([], (extract raw).2) := by
  have hrm : removeMetadata (extract raw).2 = (extract raw).2 := by
    unfold removeMetadata
    rw [h]
  have hmc : metaContent (extract raw).2 = [] := by
    unfold metaContent
    rw [h]
  show (metaContent (extract raw).2,
      trimChars (removeMetadata (extract raw).2)) = ([], (extract raw).2)
  rw [hmc, hrm]
  have htr : trimChars (extract raw).2 = (extract raw).2 :=
    trim_idem (removeMetadata raw)
  rw [htr]

/-- Witness for C4: the amended theorem applied at a concrete raw block
with no delimiter pair in its stripped body. -/
theorem c4_amended_witness :
    extract (extract (chars "graph TD")).2 =
      ([], (extract (chars "graph TD")).2) :=
  c4_amended (chars "graph TD") (by decide)

/-- Claim C6, counterexample: the claim says any value other than the
literal `false` proceeds to a task, but `prerenderRegex =
/prerender:\s*false/` has no terminator after `false`, so the value
`falsely` — whose prerender value is not the literal `false` — also
matches and produces zero tasks. -/
theorem c6_counterexample :
    planTasks (chars "") (chars "svg") (chars "/out")
        [(blockFalsely, chars "en")] = [] ∧
      keyGroup (chars "prerender:") (metaContent blockFalsely) =
        some (chars "falsely") ∧
      chars "falsely" ≠ chars "false" := by
  decide

/-- Claim C6 (amended): a block produces zero RenderTasks from plan exactly
when its metadata content matches `/prerender:\s*false/`, i.e. contains
`prerender:` followed by optional whitespace and text beginning with the
literal `false`; the literal value `false` therefore skips the block, but
so does any value beginning with `false` (such as `falsely`); any other
value for the key, or its absence, produces a task. -/
theorem c6_amended (blk loc s f od : List Char) :
    planTasks s f od [(blk, loc)] = [] ↔
      prerenderFalse (metaContent blk) = true := by
  by_cases hp : prerenderFalse (metaContent blk) = true
  · simp [planTasks, processBlock_eq, hp]
  · simp [planTasks, processBlock_eq, hp]

/-- Witness for C6: a block carrying the literal `prerender: false` marker
produces zero tasks, via the amended equivalence. -/
theorem c6_amended_witness :
    planTasks (chars "") (chars "svg") (chars "/out")
        [(blockPrerenderOff, chars "en")] = [] :=
  (c6_amended blockPrerenderOff (chars "en") (chars "") (chars "svg")
    (chars "/out")).mpr (by decide)

/-- Claim C2, counterexample: the claim asserts the deduplicated task count
equals the number of distinct (identity, locale, variant) triples whenever
no two blocks collide on a derived identity.  Two blocks with the distinct
explicit identities `a` (locale `b-en`) and `a-b` (locale `en`) collide on
the assembled filename `a-b-en.svg` without colliding on identity: the two
planned tasks carry 2 distinct (identity, locale) pairs yet dedup keeps
only 1 task. -/
theorem c2_counterexample :
    (planTasks (chars "") (chars "svg") (chars "/out")
          [(blockIdA, chars "b-en"), (blockIdAB, chars "en")]).length = 2 ∧
      ((planTasks (chars "") (chars "svg") (chars "/out")
          [(blockIdA, chars "b-en"), (blockIdAB, chars "en")]).map
        (fun t => t.id)).Nodup ∧
      countDistinct ((planTasks (chars "") (chars "svg") (chars "/out")
          [(blockIdA, chars "b-en"), (blockIdAB, chars "en")]).map
        idLocale) = 2 ∧
      (uniqueTasks (planTasks (chars "") (chars "svg") (chars "/out")
          [(blockIdA, chars "b-en"), (blockIdAB, chars "en")])).length = 1 := by
  decide

/-- Claim C2 (amended): the task list produced by plan contains at most one
task per output filename: its length is at most the number of distinct
(identity, locale) pairs (the variant component is fixed per pass), and
exactly equal whenever no two planned tasks map to the same output
filename; when two blocks map to the same filename, the later-scanned
block's task is the one kept (the map value is the last task with that
filename), and the surviving tasks appear in the order of each filename's
first insertion, without duplicate filenames. -/
theorem c2_amended (blocks : List (List Char × List Char))
    (s f od : List Char) :
    (uniqueTasks (planTasks s f od blocks)).length ≤
        countDistinct ((planTasks s f od blocks).map idLocale) ∧
      (((planTasks s f od blocks).map (fun t => t.filename)).Nodup →
        (uniqueTasks (planTasks s f od blocks)).length =
          countDistinct ((planTasks s f od blocks).map idLocale)) ∧
      (∀ t ∈ uniqueTasks (planTasks s f od blocks),
        lastTask t.filename (planTasks s f od blocks) = some t) ∧
      (uniqueTasks (planTasks s f od blocks)).map (fun t => t.filename) =
        firstKeys ((planTasks s f od blocks).map (fun t => t.filename)) ∧
      ((uniqueTasks (planTasks s f od blocks)).map
        (fun t => t.filename)).Nodup := by
  have hfil : ∀ t ∈ planTasks s f od blocks,
      t.filename = mkFilename t.id t.locale s f :=
    fun t ht => (planTasks_filename s f od blocks t ht).1
  have hmap : (planTasks s f od blocks).map (fun t => t.filename) =
      ((planTasks s f od blocks).map idLocale).map
        (fun pr => mkFilename pr.1 pr.2 s f) := by
    rw [List.map_map]
    exact List.map_congr_left (fun t ht => hfil t ht)
  refine ⟨?_, ?_, fun t ht => uniqueTasks_last_wins _ t ht,
    uniqueTasks_filenames _, ?_⟩
  · rw [uniqueTasks_length, hmap]
    exact countDistinct_map_le _ _
  · intro hnd
    have hpairs : ((planTasks s f od blocks).map idLocale).Nodup := by
      rw [hmap] at hnd
      exact hnd.of_map
    rw [uniqueTasks_length, countDistinct_of_nodup _ hnd,
      countDistinct_of_nodup _ hpairs, List.length_map, List.length_map]
  · rw [uniqueTasks_filenames]
    exact nodup_firstKeys _

/-- Witness for C2: the amended equality applied at two blocks with
distinct filenames. -/
theorem c2_amended_witness :
    ((planTasks (chars "") (chars "svg") (chars "/out")
        [(blockIdA, chars "en"), (blockIdAB, chars "en")]).map
      (fun t => t.filename)).Nodup ∧
      (uniqueTasks (planTasks (chars "") (chars "svg") (chars "/out")
          [(blockIdA, chars "en"), (blockIdAB, chars "en")])).length =
        countDistinct ((planTasks (chars "") (chars "svg") (chars "/out")
            [(blockIdA, chars "en"), (blockIdAB, chars "en")]).map
          idLocale) :=
  ⟨by decide,
    (c2_amended [(blockIdA, chars "en"), (blockIdAB, chars "en")]
      (chars "") (chars "svg") (chars "/out")).2.1 (by decide)⟩

/-- Helper for C8: deduplication keeps both tasks of a pair with distinct
filenames, in order. -/
theorem uniqueTasks_pair (t1 t2 : RenderTask)
    (h : t1.filename ≠ t2.filename) : uniqueTasks [t1, t2] = [t1, t2] := by
  have h' : t2.filename ≠ t1.filename := Ne.symm h
  simp [uniqueTasks, firstKeys, lastTask, List.filter_cons, h, h']

/-- Claim C8: for every diagram block with no explicit identity override
and no prerender skip, planning the same block under locales `en` and `de`
produces two tasks whose identities are equal (the content hash of the
body, which does not depend on the locale — the same across runs because
derivation is a pure function), with distinct output filenames
`<hash>-en<suffix>.<format>` and `<hash>-de<suffix>.<format>`, and both
tasks survive deduplication. -/
theorem c8_locale_independent (blk s f od : List Char)
    (h1 : prerenderFalse (metaContent blk) = false)
    (h2 : (keyGroup idKey (metaContent blk)).getD [] = []) :
    ∃ t1 t2,
      uniqueTasks (planTasks s f od
          [(blk, chars "en"), (blk, chars "de")]) = [t1, t2] ∧
        t1.id = t2.id ∧
        t1.id = createHash (trimChars (removeMetadata (stripFences blk))) ∧
        t1.filename = t1.id ++ chars "-en" ++ s ++ chars "." ++ f ∧
        t2.filename = t2.id ++ chars "-de" ++ s ++ chars "." ++ f ∧
        t1.filename ≠ t2.filename := by
  have hid : deriveId (trimChars (removeMetadata (stripFences blk)))
      (keyGroup idKey (metaContent blk)) =
        createHash (trimChars (removeMetadata (stripFences blk))) := by
    cases hkg : keyGroup idKey (metaContent blk) with
    | none => rfl
    | some g =>
      rw [hkg] at h2
      simp only [Option.getD_some] at h2
      subst h2
      rfl
  have hpb : ∀ loc : List Char, processBlock s f od blk loc =
      some ⟨createHash (trimChars (removeMetadata (stripFences blk))), loc,
        mkFilename (createHash (trimChars (removeMetadata (stripFences blk))))
          loc s f,
        trimChars (removeMetadata (stripFences blk)),
        joinPath od (mkFilename
          (createHash (trimChars (removeMetadata (stripFences blk))))
          loc s f)⟩ := by
    intro loc
    rw [processBlock_eq, if_neg (by simp [h1]), hid]
  have hplan : planTasks s f od [(blk, chars "en"), (blk, chars "de")] =
      [⟨createHash (trimChars (removeMetadata (stripFences blk))), chars "en",
        mkFilename (createHash (trimChars (removeMetadata (stripFences blk))))
          (chars "en") s f,
        trimChars (removeMetadata (stripFences blk)),
        joinPath od (mkFilename
          (createHash (trimChars (removeMetadata (stripFences blk))))
          (chars "en") s f)⟩,
      ⟨createHash (trimChars (removeMetadata (stripFences blk))), chars "de",
        mkFilename (createHash (trimChars (removeMetadata (stripFences blk))))
          (chars "de") s f,
        trimChars (removeMetadata (stripFences blk)),
        joinPath od (mkFilename
          (createHash (trimChars (removeMetadata (stripFences blk))))
          (chars "de") s f)⟩] := by
    simp [planTasks, hpb]
  have hfn : ∀ id loc : List Char, mkFilename id loc s f =
      id ++ (chars "-" ++ loc) ++ s ++ chars "." ++ f := by
    intro id loc
    rw [mkFilename, List.append_assoc id]
  have hne : mkFilename (createHash (trimChars (removeMetadata
        (stripFences blk)))) (chars "en") s f ≠
      mkFilename (createHash (trimChars (removeMetadata (stripFences blk))))
        (chars "de") s f := by
    intro he
    simp only [mkFilename, List.append_assoc] at he
    have he2 := List.append_cancel_left he
    have he3 : ('-' :: 'e' :: 'n' :: (s ++ ('.' :: f))) =
        ('-' :: 'd' :: 'e' :: (s ++ ('.' :: f))) := he2
    simp at he3
  refine ⟨⟨createHash (trimChars (removeMetadata (stripFences blk))),
      chars "en",
      mkFilename (createHash (trimChars (removeMetadata (stripFences blk))))
        (chars "en") s f,
      trimChars (removeMetadata (stripFences blk)),
      joinPath od (mkFilename
        (createHash (trimChars (removeMetadata (stripFences blk))))
        (chars "en") s f)⟩,
    ⟨createHash (trimChars (removeMetadata (stripFences blk))), chars "de",
      mkFilename (createHash (trimChars (removeMetadata (stripFences blk))))
        (chars "de") s f,
      trimChars (removeMetadata (stripFences blk)),
      joinPath od (mkFilename
        (createHash (trimChars (removeMetadata (stripFences blk))))
        (chars "de") s f)⟩, ?_, rfl, rfl, ?_, ?_, hne⟩
  · rw [hplan]
    exact uniqueTasks_pair _ _ hne
  · show mkFilename _ (chars "en") s f = _
    rw [hfn]
    rfl
  · show mkFilename _ (chars "de") s f = _
    rw [hfn]
    rfl

/-- Witness for C8: the theorem applied at a concrete block with no
metadata. -/
theorem c8_witness :
    ∃ t1 t2,
      uniqueTasks (planTasks (chars "") (chars "svg") (chars "/out")
          [(blockPlain, chars "en"), (blockPlain, chars "de")]) = [t1, t2] ∧
        t1.id = t2.id ∧
        t1.id = createHash (trimChars (removeMetadata
          (stripFences blockPlain))) ∧
        t1.filename = t1.id ++ chars "-en" ++ chars "" ++ chars "." ++
          chars "svg" ∧
        t2.filename = t2.id ++ chars "-de" ++ chars "" ++ chars "." ++
          chars "svg" ∧
        t1.filename ≠ t2.filename :=
  c8_locale_independent blockPlain (chars "") (chars "svg") (chars "/out")
    (by decide) (by decide)

/-- Claim C9: for every mermaid code-block value with no embedded triple
backtick and not ending in a backtick (both guaranteed for values cut out
by the renderer's lazy block regex), the render pipeline — which receives
the value wrapped in its fences — computes the same identity as the markup
transformer, which receives the bare value: both strip the first
dash-delimited metadata header, trim, and take the trimmed explicit id if
present, else the 10-character truncated MD5 hex digest of the body; and
both assemble the same output filename from identity, locale, suffix and
format, so every image reference emitted into the markup names a file the
renderer would produce. -/
theorem c9_filename_agreement (v loc s f : List Char)
    (h1 : splitFirst fence v = none)
    (h2 : v.getLast? ≠ some backtick) :
    rendererId (fenceMermaid ++ v ++ fence) = remarkId v ∧
      mkFilename (rendererId (fenceMermaid ++ v ++ fence)) loc s f =
        remarkFilename (remarkId v) loc s f := by
  have hid : rendererId (fenceMermaid ++ v ++ fence) = remarkId v := by
    show deriveId
        (trimChars (removeMetadata (stripFences (fenceMermaid ++ v ++ fence))))
        (keyGroup idKey (metaContent (fenceMermaid ++ v ++ fence))) =
      remarkId v
    rw [stripFences_wrap v h1 h2,
      metaContent_embed fenceMermaid v fence (by decide) (by decide)]
    rfl
  exact ⟨hid, by rw [hid]; rfl⟩

/-- Witness for C9: the agreement applied at a concrete code-block value. -/
theorem c9_witness :
    rendererId (fenceMermaid ++ chars "graph TD" ++ fence) =
      remarkId (chars "graph TD") :=
  (c9_filename_agreement (chars "graph TD") (chars "en") (chars "")
    (chars "svg") (by decide) (by decide)).1

/-- Claim C1, counterexample: the claim says execute returns a RunResult
with counts of rendered, skipped and failed and that one failure out of two
tasks yields failed == 1.  The code keeps only renderedCount and
skippedCount (renderer.js:147-148) and returns nothing: running two fresh
tasks of which exactly one fails yields the final counts rendered = 1,
skipped = 0 — the failing task is accounted in no count, so no failed
count exists, contradicting the claimed shape of the result. -/
theorem c1_counterexample :
    (execute renderFailsB unlinkAlwaysOk (chars "/tmp")
          [taskA, taskB] []).summary = ⟨1, 0⟩ ∧
      (execute renderFailsB unlinkAlwaysOk (chars "/tmp")
            [taskA, taskB] []).summary.rendered +
          (execute renderFailsB unlinkAlwaysOk (chars "/tmp")
            [taskA, taskB] []).summary.skipped ≠ [taskA, taskB].length := by
  decide

/-- Claim C1 (amended): for every task list of size N with pairwise
distinct output paths none of which already exists, in which exactly one
task's renderer invocation fails and all others succeed, execute continues
processing the remaining tasks, and the two counts the code maintains and
logs are rendered == N-1 and skipped == 0; the code counts failures
nowhere and returns nothing to the caller, so no RunResult carrying a
failed count exists. -/
theorem c1_amended (rOk : RenderTask → Bool) (u : List Char → Bool)
    (td : List Char) (fs0 : List (List Char)) (as bs : List RenderTask)
    (tb : RenderTask) (hfail : rOk tb = false)
    (hok : ∀ t ∈ as ++ bs, rOk t = true)
    (hnew : ∀ t ∈ as ++ tb :: bs, t.outputPath ∉ fs0)
    (hnd : ((as ++ tb :: bs).map (fun t => t.outputPath)).Nodup) :
    (execute rOk u td (as ++ tb :: bs) fs0).summary =
      ⟨(as ++ tb :: bs).length - 1, 0⟩ := by
  obtain ⟨hs, _⟩ := exec_fold_counts rOk u td (as ++ tb :: bs)
    ⟨fs0, ⟨0, 0⟩, []⟩ hnew hnd
  have hca : as.countP (fun t => rOk t) = as.length :=
    List.countP_eq_length.mpr
      (fun t ht => by simpa using hok t (List.mem_append_left _ ht))
  have hcb : bs.countP (fun t => rOk t) = bs.length :=
    List.countP_eq_length.mpr
      (fun t ht => by simpa using hok t (List.mem_append_right _ ht))
  show (List.foldl (execTask rOk u td) ⟨fs0, ⟨0, 0⟩, []⟩
      (as ++ tb :: bs)).summary = _
  rw [hs]
  simp only [List.countP_append, List.countP_cons, hfail, hca, hcb,
    List.length_append, List.length_cons, RunSummary.mk.injEq,
    Bool.false_eq_true, if_false, and_true]
  omega

/-- Witness for C1: the amended count theorem applied at a concrete
two-task run whose second task fails. -/
theorem c1_amended_witness :
    (execute renderFailsB unlinkNeverOk (chars "/tmp")
        ([taskA] ++ taskB :: []) []).summary =
      ⟨([taskA] ++ taskB :: []).length - 1, 0⟩ :=
  c1_amended renderFailsB unlinkNeverOk (chars "/tmp") [] [taskA] [] taskB
    (by decide) (by decide) (by decide) (by decide)

/-- Claim C5: for every task whose output path already exists at its turn,
execute counts it as skipped and terminates the task immediately — the
resulting state differs from the incoming one only by the incremented
skipped counter and a single skipped-cached event, so no temp file is
written and the renderer is not invoked; consequently, when every renderer
invocation succeeds, running execute twice with the same N tasks yields
rendered == 0 and skipped == N on the second run, whose event trace
consists solely of skipped-cached events. -/
theorem c5_cache_respected (rOk : RenderTask → Bool) (u : List Char → Bool)
    (td : List Char) (ts : List RenderTask) (fs0 : List (List Char))
    (hok : ∀ t ∈ ts, rOk t = true) :
    (execute rOk u td ts (execute rOk u td ts fs0).fs).summary =
        ⟨0, ts.length⟩ ∧
      (execute rOk u td ts (execute rOk u td ts fs0).fs).events =
        ts.map (fun t => Event.skippedCached t.filename) ∧
      (∀ (st : ExecState) (t : RenderTask), t.outputPath ∈ st.fs →
        execTask rOk u td st t =
          { st with
            summary :=
              { st.summary with skipped := st.summary.skipped + 1 },
            events := st.events ++ [.skippedCached t.filename] }) := by
  have hall : ∀ t ∈ ts, t.outputPath ∈ (execute rOk u td ts fs0).fs :=
    exec_fold_outputs_present rOk u td ts ⟨fs0, ⟨0, 0⟩, []⟩ hok
  have hrun2 := exec_fold_cached rOk u td ts
    ⟨(execute rOk u td ts fs0).fs, ⟨0, 0⟩, []⟩ hall
  refine ⟨?_, ?_, fun st t h => execTask_cached rOk u td st t h⟩
  · show (List.foldl (execTask rOk u td)
        ⟨(execute rOk u td ts fs0).fs, ⟨0, 0⟩, []⟩ ts).summary = _
    rw [hrun2]
    simp
  · show (List.foldl (execTask rOk u td)
        ⟨(execute rOk u td ts fs0).fs, ⟨0, 0⟩, []⟩ ts).events = _
    rw [hrun2]
    simp

/-- Witness for C5: a one-task run repeated against its own output
directory skips the task. -/
theorem c5_witness :
    (execute renderAlwaysOk unlinkAlwaysOk (chars "/tmp") [taskA]
        (execute renderAlwaysOk unlinkAlwaysOk (chars "/tmp")
          [taskA] []).fs).summary = ⟨0, [taskA].length⟩ :=
  (c5_cache_respected renderAlwaysOk unlinkAlwaysOk (chars "/tmp") [taskA]
    [] (by decide)).1

/-- Claim C7: deletion of the temporary input file is attempted for every
task that wrote one — every wrote-temp event in a run's trace is
accompanied by a deletion event (successful or failed) for the same path,
whatever the renderer outcome — and deletion failure never changes outcome
classification: the counts and the set of produced output files of a run
are identical under any two deletion-outcome functions, so a task that
rendered successfully but failed cleanup still counts as rendered. -/
theorem c7_cleanup_non_fatal (rOk : RenderTask → Bool)
    (u1 u2 : List Char → Bool) (td : List Char) (ts : List RenderTask)
    (fs0 : List (List Char)) :
    (execute rOk u1 td ts fs0).summary =
        (execute rOk u2 td ts fs0).summary ∧
      (execute rOk u1 td ts fs0).fs = (execute rOk u2 td ts fs0).fs ∧
      (∀ p, Event.wroteTemp p ∈ (execute rOk u1 td ts fs0).events →
        Event.tempDeleted p ∈ (execute rOk u1 td ts fs0).events ∨
          Event.tempDeleteFailed p ∈ (execute rOk u1 td ts fs0).events) := by
  obtain ⟨hfs, hsm⟩ := exec_fold_unlink_irrelevant rOk u1 u2 td ts
    ⟨fs0, ⟨0, 0⟩, []⟩ ⟨fs0, ⟨0, 0⟩, []⟩ rfl rfl
  refine ⟨hsm, hfs, ?_⟩
  exact exec_fold_delete_attempted rOk u1 td ts ⟨fs0, ⟨0, 0⟩, []⟩
    (fun p hp => absurd hp (by simp))

/-- Witness for C7: in a run whose deletion stub always fails, the temp
file of the single rendered task still has its deletion attempted. -/
theorem c7_witness :
    Event.tempDeleted (tempName (chars "/tmp") taskA) ∈
        (execute renderAlwaysOk unlinkNeverOk (chars "/tmp")
          [taskA] []).events ∨
      Event.tempDeleteFailed (tempName (chars "/tmp") taskA) ∈
        (execute renderAlwaysOk unlinkNeverOk (chars "/tmp")
          [taskA] []).events :=
  (c7_cleanup_non_fatal renderAlwaysOk unlinkNeverOk unlinkNeverOk
    (chars "/tmp") [taskA] []).2.2 (tempName (chars "/tmp") taskA)
    (by decide)

end Mermaid
